import Mathlib

/-
Verification of the faraday-cage host/guest bridge runtime.

This file gives a shallow embedding of the core of the library:
 * `marshalToVM` and `buildNestedObject` from src/lib/marshalling.ts,
   together with `isQuickJSHandle` from src/lib/utils.ts;
 * `defineSandboxFn` from src/lib/modules/_mod_authoring.ts;
 * `FaradayCage.runCode` from src/lib/main.ts.

Guest (QuickJS) values are modelled structurally: the engine heap is a list
of guest values indexed by handle id, `scope.manage` registers a handle id
with the evaluation scope, and `vm.setProp` embeds the (immutable) guest
value of the child handle into the parent object.  The four QuickJS
singleton handles `vm.null`, `vm.undefined`, `vm.true`, `vm.false` occupy
heap slots 0-3 and are never scope-managed, exactly as the static handles
of quickjs-emscripten are never disposed.
-/

namespace Cage

/-- A host-side JavaScript error as the bridge observes it: a `name` and a
`message`.  `new Error(msg)` yields `⟨"Error", msg⟩`. -/
structure HostErr where
  name : String
  message : String
deriving DecidableEq, Repr

/-- Host-side JavaScript values, split exactly along the type tests that
`marshalToVM` (src/lib/marshalling.ts) performs: `null`, `undefined`,
`true`/`false`, `Array.isArray`, `instanceof Error`, thenable/other objects,
`typeof string/number/function`, and a catch-all (`sym`, e.g. a symbol or
bigint) matching none of the rules.  The numeric carrier is `Int`; the
marshaller never computes with numbers, it only passes them through. -/
inductive HostValue where
  | null
  | undef
  | bool (b : Bool)
  | num (n : Int)
  | str (s : String)
  | arr (elems : List HostValue)
  | err (name message : String)
  | obj (fields : List (String × HostValue))
  | func (tag : Nat)
  | sym (tag : Nat)

/-- Guest-side (QuickJS) values.  `gArr` and `gObj` record the properties in
the order the bridge set them (`vm.setProp` by integer index for arrays, by
string key for objects).  `gPromise` is a guest promise created by
`vm.newPromise`; its settlement happens asynchronously and is outside this
synchronous heap model. -/
inductive GuestVal where
  | gNull
  | gUndef
  | gBool (b : Bool)
  | gNum (n : Int)
  | gStr (s : String)
  | gArr (entries : List (Nat × GuestVal))
  | gErr (name message : String)
  | gObj (fields : List (String × GuestVal))
  | gPromise

/-- The marshalling state: the engine heap (handle id = list index) and the
ids registered with the evaluation's `Scope` via `scope.manage`. -/
structure MState where
  heap : List GuestVal
  managed : List Nat

/-- The initial heap holds the four QuickJS singleton handles. -/
def initHeap : List GuestVal :=
  [GuestVal.gNull, GuestVal.gUndef, GuestVal.gBool true, GuestVal.gBool false]

/-- Marshalling starts on a fresh context: singleton handles only, nothing
scope-managed yet. -/
def initState : MState := { heap := initHeap, managed := [] }

/-- Reads the guest value a handle refers to. -/
def getObj (s : MState) (h : Nat) : GuestVal := (s.heap[h]?).getD GuestVal.gUndef

/-- Allocates a fresh handle for a new guest value and immediately registers
it with the scope — the model of `scope.manage(vm.newX(...))`. -/
def allocManaged (g : GuestVal) (s : MState) : Nat × MState :=
  (s.heap.length,
   { heap := s.heap ++ [g], managed := s.managed ++ [s.heap.length] })

/-- Appends an integer-indexed property to a guest array value. -/
def addIdxEntry : GuestVal → Nat → GuestVal → GuestVal
  | .gArr es, i, g => .gArr (es ++ [(i, g)])
  | o, _, _ => o

/-- Appends a string-keyed property to a guest object value. -/
def addKeyEntry : GuestVal → String → GuestVal → GuestVal
  | .gObj fs, k, g => .gObj (fs ++ [(k, g)])
  | o, _, _ => o

/-- Folds `addKeyEntry` over a list of properties. -/
def addKeyEntries : GuestVal → List (String × GuestVal) → GuestVal
  | g, [] => g
  | g, (k, v) :: rest => addKeyEntries (addKeyEntry g k v) rest

/-- Model of `vm.setProp(parent, i, child)` with an integer key. -/
def setPropIdx (s : MState) (parent : Nat) (i : Nat) (child : Nat) : MState :=
  { s with heap := s.heap.set parent (addIdxEntry (getObj s parent) i (getObj s child)) }

/-- Model of `vm.setProp(parent, key, child)` with a string key. -/
def setPropKey (s : MState) (parent : Nat) (k : String) (child : Nat) : MState :=
  { s with heap := s.heap.set parent (addKeyEntry (getObj s parent) k (getObj s child)) }

/-- The `for` loop of the array branch: sets the marshalled element handles
on the array by integer index, in order. -/
def setIdxAll (parent : Nat) : Nat → List Nat → MState → MState
  | _, [], s => s
  | i, hid :: rest, s => setIdxAll parent (i + 1) rest (setPropIdx s parent i hid)

/-- The `for` loop of the object branch: sets the marshalled property handles
on the object by string key, in iteration order. -/
def setKeyAll (parent : Nat) : List (String × Nat) → MState → MState
  | [], s => s
  | (k, hid) :: rest, s => setKeyAll parent rest (setPropKey s parent k hid)

/-- `Object.entries` applied to a JavaScript array enumerates its elements
under their decimal index strings "0", "1", …, in order. -/
def stringIndexed : Nat → List Nat → List (String × Nat)
  | _, [] => []
  | i, h :: rest => (toString i, h) :: stringIndexed (i + 1) rest

/-- Is this host value a function (`typeof value === "function"`)? -/
def isFuncVal : HostValue → Bool
  | .func _ => true
  | _ => false

/-- The `isPromise` test of src/lib/marshalling.ts applied to an object's
fields: a non-null object whose `then` property is a function. -/
def isThenable (fields : List (String × HostValue)) : Bool :=
  match fields.lookup "then" with
  | some v => isFuncVal v
  | none => false

/-- The error thrown for host functions: `new Error("Cannot marshal function to VM")`. -/
def cannotMarshalFunction : HostErr := ⟨"Error", "Cannot marshal function to VM"⟩

/-- The error thrown for values matching no rule: `new Error("Cannot marshal the given value")`. -/
def cannotMarshalValue : HostErr := ⟨"Error", "Cannot marshal the given value"⟩

mutual

/-- Embedding of `marshalToVM` (src/lib/marshalling.ts, lines 13-93).  The
branches appear in source order: `null`, `undefined`, `true`, `false`,
`Array.isArray`, `instanceof Error`, `isPromise`, `typeof "object"`,
`typeof "string"`, `typeof "number"`, `typeof "function"`, catch-all.
A thrown error is returned as `Except.error` together with the state at the
moment of the throw (handles already allocated stay scope-managed).

Note the array branch: the source computes `value.map(val => marshalToVM(...))`,
allocates `vm.newArray()`, sets every element by integer index — and then has
no `return` statement, so control falls through past the `instanceof Error`
and `isPromise` tests (false for an array) into the `typeof "object"` branch,
which re-marshals every element via `Object.entries` and returns a fresh
plain-object handle keyed by the decimal index strings. -/
def marshalToVM : HostValue → MState → Except HostErr Nat × MState
  | .null, s => (.ok 0, s)
  | .undef, s => (.ok 1, s)
  | .bool true, s => (.ok 2, s)
  | .bool false, s => (.ok 3, s)
  | .arr elems, s =>
    match marshalList elems s with
    | (.error e, s) => (.error e, s)
    | (.ok hs, s) =>
      let p := allocManaged (.gArr []) s
      let s := setIdxAll p.1 0 hs p.2
      match marshalList elems s with
      | (.error e, s) => (.error e, s)
      | (.ok hs2, s) =>
        let q := allocManaged (.gObj []) s
        (.ok q.1, setKeyAll q.1 (stringIndexed 0 hs2) q.2)
  | .err n m, s =>
    let p := allocManaged (.gErr n m) s
    (.ok p.1, p.2)
  | .obj fields, s =>
    if isThenable fields then
      let p := allocManaged .gPromise s
      (.ok p.1, p.2)
    else
      match marshalFields fields s with
      | (.error e, s) => (.error e, s)
      | (.ok kvs, s) =>
        let q := allocManaged (.gObj []) s
        (.ok q.1, setKeyAll q.1 kvs q.2)
  | .str v, s =>
    let p := allocManaged (.gStr v) s
    (.ok p.1, p.2)
  | .num v, s =>
    let p := allocManaged (.gNum v) s
    (.ok p.1, p.2)
  | .func _, s => (.error cannotMarshalFunction, s)
  | .sym _, s => (.error cannotMarshalValue, s)

/-- `value.map(val => marshalToVM(vm, scope, val))`: marshals the elements in
order; a throw from an element propagates immediately. -/
def marshalList : List HostValue → MState → Except HostErr (List Nat) × MState
  | [], s => (.ok [], s)
  | v :: vs, s =>
    match marshalToVM v s with
    | (.error e, s) => (.error e, s)
    | (.ok h, s) =>
      match marshalList vs s with
      | (.error e, s) => (.error e, s)
      | (.ok hs, s) => (.ok (h :: hs), s)

/-- `Object.entries(value).map(([key, val]) => [key, marshalToVM(...)])`:
marshals each own property value in iteration order, keeping its key. -/
def marshalFields : List (String × HostValue) → MState → Except HostErr (List (String × Nat)) × MState
  | [], s => (.ok [], s)
  | (k, v) :: rest, s =>
    match marshalToVM v s with
    | (.error e, s) => (.error e, s)
    | (.ok h, s) =>
      match marshalFields rest s with
      | (.error e, s) => (.error e, s)
      | (.ok kvs, s) => (.ok ((k, h) :: kvs), s)

end

mutual

/-- Embedding of the engine adapter's `vm.dump`: a structural clone of a
guest value as a host value.  Arrays come back as ordered sequences, objects
as string-keyed mappings in insertion order, errors keep `name`/`message`.
A guest promise has no own enumerable string-keyed properties, so it dumps
as an empty plain object. -/
def dumpVal : GuestVal → HostValue
  | .gNull => .null
  | .gUndef => .undef
  | .gBool b => .bool b
  | .gNum n => .num n
  | .gStr v => .str v
  | .gArr es => .arr (dumpIdxEntries es)
  | .gErr n m => .err n m
  | .gObj fs => .obj (dumpKeyEntries fs)
  | .gPromise => .obj []

/-- Dumps the elements of a guest array in index order. -/
def dumpIdxEntries : List (Nat × GuestVal) → List HostValue
  | [] => []
  | (_, g) :: rest => dumpVal g :: dumpIdxEntries rest

/-- Dumps the properties of a guest object in insertion order. -/
def dumpKeyEntries : List (String × GuestVal) → List (String × HostValue)
  | [] => []
  | (k, g) :: rest => (k, dumpVal g) :: dumpKeyEntries rest

end

mutual

/-- Host values on which the marshaller's structural round-trip can be
stated: built from `null`, `undefined`, booleans, numbers, strings, errors
and plain objects only — no arrays (see the array-branch fall-through), no
functions and no unrecognized values anywhere (so in particular no
promise-shaped value: without a function-valued `then` property nothing is
thenable). -/
def clean : HostValue → Bool
  | .null => true
  | .undef => true
  | .bool _ => true
  | .num _ => true
  | .str _ => true
  | .arr _ => false
  | .err _ _ => true
  | .obj fields => cleanFields fields
  | .func _ => false
  | .sym _ => false

/-- All property values of an object are `clean`. -/
def cleanFields : List (String × HostValue) → Bool
  | [] => true
  | (_, v) :: rest => clean v && cleanFields rest

end

/-- The heap slots 0-3 hold the four singleton values, as on a fresh
context. -/
def SingletonsOK (s : MState) : Prop :=
  s.heap[0]? = some GuestVal.gNull ∧ s.heap[1]? = some GuestVal.gUndef ∧
  s.heap[2]? = some (GuestVal.gBool true) ∧ s.heap[3]? = some (GuestVal.gBool false)

/-- Scope-completeness invariant of a marshalling state: every handle other
than the four singletons is registered with the scope. -/
def ManagedOK (s : MState) : Prop :=
  4 ≤ s.heap.length ∧ ∀ h, 4 ≤ h → h < s.heap.length → h ∈ s.managed

/-- A runtime value inside a `SandboxObjectDef` tree handed to
`defineSandboxObject`/`buildNestedObject`.  The declared type says
"QuickJSHandle or nested definition object", but at runtime any object can
appear, so the model distinguishes:
 * `handle h` — a real guest handle (an object carrying `alive : boolean`);
 * `plainAlive cs` — a plain host object that happens to expose a boolean
   `alive` property (not a real handle);
 * `plain cs` — a plain host object without a boolean `alive` property. -/
inductive DefNode where
  | handle (h : Nat)
  | plainAlive (children : List (String × DefNode))
  | plain (children : List (String × DefNode))

/-- Embedding of `isQuickJSHandle` (src/lib/utils.ts): the value is not
null/undefined, `typeof` is "object", and its `alive` property is a boolean.
Both a real handle and a plain host object exposing a boolean `alive` pass
this test. -/
def isQuickJSHandle : DefNode → Bool
  | .handle _ => true
  | .plainAlive _ => true
  | .plain _ => false

/-- The result of building a `SandboxObjectDef` subtree: either a leaf that
passed the `isQuickJSHandle` test and was installed verbatim by `setProp`,
or a nested guest object freshly built by `buildNestedObject`. -/
inductive BuiltVal where
  | installed (leaf : DefNode)
  | node (fields : List (String × BuiltVal))

/-- Allocation accounting for `buildNestedObject`: how many `vm.newObject()`
calls were made and how many of the resulting handles were registered with
the scope (`scope.manage`). -/
structure BuildState where
  allocs : Nat
  managed : Nat
deriving DecidableEq, Repr

/-- A fresh build: nothing allocated yet. -/
def buildInit : BuildState := { allocs := 0, managed := 0 }

/-- One `scope.manage(vm.newObject())` call. -/
def bumpAlloc (s : BuildState) : BuildState :=
  { allocs := s.allocs + 1, managed := s.managed + 1 }

/-- The `Object.entries(obj).map(([key, val]) => [key, isQuickJSHandle(val) ?
val : buildNestedObject(vm, scope, val)])` map of `buildNestedObject`
(src/lib/marshalling.ts, lines 99-112).  A leaf passing `isQuickJSHandle`
— which, by `isQuickJSHandle_false_iff`, is everything except `plain` —
is kept verbatim; a `plain` leaf is built recursively (its children first,
then one managed `vm.newObject()`; the properties are then set on it in key
iteration order, recorded by the `node` constructor). -/
def buildPairs : List (String × DefNode) → BuildState → List (String × BuiltVal) × BuildState
  | [], s => ([], s)
  | (k, DefNode.plain cs) :: rest, s =>
    let p := buildPairs cs s
    let s1 := bumpAlloc p.2
    let q := buildPairs rest s1
    ((k, BuiltVal.node p.1) :: q.1, q.2)
  | (k, leaf) :: rest, s =>
    let q := buildPairs rest s
    ((k, BuiltVal.installed leaf) :: q.1, q.2)

/-- Embedding of `buildNestedObject` (src/lib/marshalling.ts): builds the
key/value pairs (recursing through plain-object leaves), then allocates and
scope-manages one new guest object and sets the pairs on it in order. -/
def buildNestedObject (fields : List (String × DefNode)) (s : BuildState) : BuiltVal × BuildState :=
  let p := buildPairs fields s
  (BuiltVal.node p.1, bumpAlloc p.2)

/-- Counts the `vm.newObject()` allocations that building the given entries
performs before the enclosing object itself is allocated: one per `plain`
leaf, recursively — and none for a leaf that passes `isQuickJSHandle`. -/
def buildAllocs : List (String × DefNode) → Nat
  | [] => 0
  | (_, DefNode.plain cs) :: rest => (buildAllocs cs + 1) + buildAllocs rest
  | _ :: rest => buildAllocs rest

/-- Top-level keys of a built value (empty for an installed leaf). -/
def topKeys : BuiltVal → List String
  | .installed _ => []
  | .node fields => fields.map Prod.fst

/-- What the guest observes when it calls a function installed by
`defineSandboxFn`: either a returned handle, or a guest-side throw carrying
an error name and message. -/
inductive GuestOutcome where
  | returned (h : Nat)
  | threw (name message : String)
deriving DecidableEq, Repr

/-- Embedding of the `transformedFunc` closure of `defineSandboxFn`
(src/lib/modules/_mod_authoring.ts, lines 28-39): dump every argument handle
to a host value, call the host-typed function, and marshal its result back
into the VM.  An exception from the host function (modelled as
`Except.error`) or from `marshalToVM` propagates out of the closure. -/
def transformedFunc (hostFn : List HostValue → Except HostErr HostValue)
    (args : List GuestVal) (s : MState) : Except HostErr Nat × MState :=
  let convertedArgs := args.map dumpVal
  match hostFn convertedArgs with
  | .error e => (.error e, s)
  | .ok result => marshalToVM result s

/-- Modelled from the spec: the engine adapter is an out-of-scope
collaborator (spec sections 1 and 6); its `newFunction` contract — the
quickjs-emscripten host-callback boundary — converts a host exception that
escapes the callback into a guest-side throw carrying the error's `name`
and `message`, instead of letting it propagate uncaught into the engine.
`invokeSandboxFn` is a guest call of a `defineSandboxFn`-installed function
through that boundary. -/
def invokeSandboxFn (hostFn : List HostValue → Except HostErr HostValue)
    (args : List GuestVal) (s : MState) : GuestOutcome × MState :=
  match transformedFunc hostFn args s with
  | (.ok h, s2) => (.returned h, s2)
  | (.error e, s2) => (.threw e.name e.message, s2)

/-- Observable events of one `runCode` evaluation, in order. -/
inductive Event where
  | moduleDef (i : Nat)
  | evalCode
  | execJobs
  | hookRun (m j : Nat)
  | pumpIter
  | disposeScope
deriving DecidableEq, Repr

/-- The result type of `runCode` (src/lib/main.ts, `RunCodeResult`): a
tagged union, `ok` or `error` with a payload.  Error payloads are abstract
tokens (`Nat`): the dumped guest error or the host error, as thrown. -/
inductive RunCodeResult where
  | ok
  | error (err : Nat)
deriving DecidableEq, Repr

/-- The behaviour of one `CageModule` during an evaluation, as `runCode`
observes it: whether its `def` throws (and with which error), the
after-script hooks it registers in order (each either returning normally or
throwing the given error when later invoked), and how many keep-alive
promises it registers. -/
structure ModuleSpec where
  defThrows : Option Nat
  hooks : List (Option Nat)
  keepAlives : Nat
deriving DecidableEq, Repr

/-- One evaluation's environment: the module list, whether
`evalCodeAsync` reports an error, the error reported by the k-th
`executePendingJobs` call (entries beyond the list are `none` = success),
and after how many extra pump-loop iterations the `Promise.all` of the
keep-alive promises settles (the loop body always runs at least once, since
`settled` is flipped only at an `await`). -/
structure World where
  modules : List ModuleSpec
  evalError : Option Nat
  jobErrors : List (Option Nat)
  settleAfter : Nat
deriving DecidableEq, Repr

/-- The error outcome of the k-th `executePendingJobs` call. -/
def jobErrAt (w : World) (k : Nat) : Option Nat := w.jobErrors.getD k none

/-- State threaded through one `runCode` evaluation: the event trace, the
number of `executePendingJobs` calls so far, the next fresh handle id, and
the handles registered with the evaluation's scope, in registration order. -/
structure RunState where
  trace : List Event
  jobCalls : Nat
  nextHandle : Nat
  managed : List Nat
deriving DecidableEq, Repr

/-- Appends an event to the trace. -/
def emit (s : RunState) (e : Event) : RunState := { s with trace := s.trace ++ [e] }

/-- The starting state of an evaluation. -/
def initRunState : RunState := { trace := [], jobCalls := 0, nextHandle := 0, managed := [] }

/-- `scope.manage(...)` on a freshly created engine resource (runtime,
context, eval result): allocates the next handle id and registers it. -/
def allocManagedR (s : RunState) : Nat × RunState :=
  (s.nextHandle,
   { s with nextHandle := s.nextHandle + 1, managed := s.managed ++ [s.nextHandle] })

/-- The `for (const module of modules)` loop of `runCode`: constructs a
module context and invokes `module.def` for each module in supplied order;
a throwing `def` aborts the loop and propagates its error. -/
def stepDefs (w : World) : Nat → List ModuleSpec → RunState → Option Nat × RunState
  | _, [], s => (none, s)
  | i, m :: rest, s =>
    let s := emit s (.moduleDef i)
    match m.defThrows with
    | some e => (some e, s)
    | none => stepDefs w (i + 1) rest s

/-- One `runtime.executePendingJobs()` call: drains the guest job queue.
On failure it returns `{ error: Handle }` — a fresh live handle to the
guest error (spec section 4.1).  At all three call sites (src/lib/main.ts,
lines 76-78, 98-100 and 112-114) `runCode` only `vm.dump`s that handle and
throws the dumped value; the error handle itself is never `scope.manage`d
nor disposed, so the model mints a handle id without registering it. -/
def stepJobs (w : World) (s : RunState) : Option Nat × RunState :=
  let e := jobErrAt w s.jobCalls
  let s := emit s .execJobs
  match e with
  | none => (none, { s with jobCalls := s.jobCalls + 1 })
  | some err =>
    (some err, { s with jobCalls := s.jobCalls + 1, nextHandle := s.nextHandle + 1 })

/-- The inner hook loop: `for (const afterScriptCallback of
ctx.afterScriptExecutionHooks) afterScriptCallback()`, in registration
order; a throwing hook aborts with its error. -/
def stepHooksInner (i : Nat) : Nat → List (Option Nat) → RunState → Option Nat × RunState
  | _, [], s => (none, s)
  | j, h :: rest, s =>
    let s := emit s (.hookRun i j)
    match h with
    | some e => (some e, s)
    | none => stepHooksInner i (j + 1) rest s

/-- The outer hook loop: `for (const ctx of loadedModuleCtx)`, in module
order. -/
def stepHooks : Nat → List ModuleSpec → RunState → Option Nat × RunState
  | _, [], s => (none, s)
  | i, m :: rest, s =>
    match stepHooksInner i 0 m.hooks s with
    | (some e, s) => (some e, s)
    | (none, s) => stepHooks (i + 1) rest s

/-- The `while (!settled)` pump loop: each iteration drains the guest job
queue (failing fast on a job error) and then yields to the host reactor
(`Promise.race` against a zero-delay timer), giving the keep-alive promises
a chance to progress.  `n` is the number of iterations until `settled` is
observed true. -/
def stepPump (w : World) : Nat → RunState → Option Nat × RunState
  | 0, s => (none, s)
  | n + 1, s =>
    match stepJobs w s with
    | (some e, s) => (some e, s)
    | (none, s) => stepPump w n (emit s .pumpIter)

/-- The union of all `keepAlivePromises` across the loaded module contexts:
`loadedModuleCtx.flatMap(ctx => ctx.keepAlivePromises)`. -/
def totalKeepAlives (w : World) : Nat := (w.modules.map (fun m => m.keepAlives)).sum

/-- The tail of the `runCode` body after the hooks ran: the
`if (allPromises.length > 0)` pump loop followed by the final
`executePendingJobs` drain (src/lib/main.ts, lines 89-115). -/
def pumpPhase (w : World) (s : RunState) : Option Nat × RunState :=
  let pump :=
    if 0 < totalKeepAlives w then stepPump w (w.settleAfter + 1) s else (none, s)
  match pump with
  | (some e, s) => (some e, s)
  | (none, s) => stepJobs w s

/-- The body passed to `Scope.withScopeAsync` in `runCode`
(src/lib/main.ts, lines 52-117): manage a new runtime and context, run
every module's `def`, evaluate the user code as a module (managing the
result), drain the job queue once, run the after-script hooks, pump the job
queue until all keep-alive promises settle (skipped when none were
registered), and drain once more.  A `some e` result is a thrown error. -/
def runBody (w : World) (s : RunState) : Option Nat × RunState :=
  let p := allocManagedR s
  let q := allocManagedR p.2
  match stepDefs w 0 w.modules q.2 with
  | (some e, s) => (some e, s)
  | (none, s) =>
    let s := emit s .evalCode
    let r := allocManagedR s
    match w.evalError with
    | some e => (some e, r.2)
    | none =>
      match stepJobs w r.2 with
      | (some e, s) => (some e, s)
      | (none, s) =>
        match stepHooks 0 w.modules s with
        | (some e, s) => (some e, s)
        | (none, s) => pumpPhase w s

/-- The observable outcome of `runCode`: its tagged result, the event
trace, how many handles the evaluation allocated, and which handles the
scope disposed at teardown. -/
structure RunOutcome where
  result : RunCodeResult
  trace : List Event
  allocated : Nat
  disposed : List Nat
deriving DecidableEq, Repr

/-- Embedding of `FaradayCage.runCode` (src/lib/main.ts, lines 50-124).
`Scope.withScopeAsync` disposes every managed resource when the body
settles, on the success path and on every failure path alike (spec section
4.2 — the `Scope` class itself belongs to quickjs-emscripten); the
surrounding `try`/`catch` turns a thrown error into the tagged
`{ type: "error", err }` result, so the returned task never rejects. -/
def runCodeM (w : World) : RunOutcome :=
  let p := runBody w initRunState
  let s := emit p.2 .disposeScope
  { result := match p.1 with | none => .ok | some e => .error e
    trace := s.trace
    allocated := s.nextHandle
    disposed := s.managed }

/-- First error among the module `def`s, in order: the error `runCode`'s
module loop propagates. -/
def defsResult : List ModuleSpec → Option Nat
  | [] => none
  | m :: rest =>
    match m.defThrows with
    | some e => some e
    | none => defsResult rest

/-- The `moduleDef` events the module loop emits, starting at index `i`. -/
def defsEvents : Nat → List ModuleSpec → List Event
  | _, [] => []
  | i, m :: rest =>
    Event.moduleDef i ::
      (match m.defThrows with
       | some _ => []
       | none => defsEvents (i + 1) rest)

/-- The `hookRun i _` events the inner hook loop emits starting at
registration index `j`: every hook in order up to and including the first
one that throws. -/
def hookEventsInner (i : Nat) : Nat → List (Option Nat) → List Event
  | _, [] => []
  | j, h :: rest =>
    Event.hookRun i j ::
      (match h with
       | some _ => []
       | none => hookEventsInner i (j + 1) rest)

/-- First error among a module's hooks. -/
def hooksResultInner : List (Option Nat) → Option Nat
  | [] => none
  | h :: rest =>
    match h with
    | some e => some e
    | none => hooksResultInner rest

/-- The `hookRun` events the after-script hook loops emit: module-supplied
order first, within-module registration order second, stopping at the first
hook that throws. -/
def hooksEvents : Nat → List ModuleSpec → List Event
  | _, [] => []
  | i, m :: rest =>
    hookEventsInner i 0 m.hooks ++
      (match hooksResultInner m.hooks with
       | some _ => []
       | none => hooksEvents (i + 1) rest)

/-- First error among all hooks, in execution order. -/
def hooksResult : List ModuleSpec → Option Nat
  | [] => none
  | m :: rest =>
    match hooksResultInner m.hooks with
    | some e => some e
    | none => hooksResult rest

/-- All hook labels in (module order, registration order), as events — what
the hook loops emit when no hook throws. -/
def allHooksLex : Nat → List ModuleSpec → List Event
  | _, [] => []
  | i, m :: rest =>
    (List.range m.hooks.length).map (fun j => Event.hookRun i j) ++ allHooksLex (i + 1) rest

/-- Is this event a `hookRun`? -/
def isHookEvent : Event → Bool
  | .hookRun _ _ => true
  | _ => false

/-- The hook invocations an evaluation performed, in order. -/
def hookTrace (o : RunOutcome) : List Event := o.trace.filter isHookEvent

/-- No module `def` throws. -/
def defsOkB (w : World) : Bool := w.modules.all (fun m => m.defThrows.isNone)

/-- Every `executePendingJobs` call succeeds. -/
def jobsOkB (w : World) : Bool := w.jobErrors.all (fun e => e.isNone)

/-- No after-script hook throws. -/
def hooksOkB (w : World) : Bool := w.modules.all (fun m => m.hooks.all (fun h => h.isNone))

/-- A fully successful environment: defs, eval, every job drain and every
hook succeed. -/
def happyB (w : World) : Bool :=
  defsOkB w && w.evalError.isNone && jobsOkB w && hooksOkB w

/-- The events `n` error-free pump-loop iterations emit: a job drain and a
yield per iteration. -/
def pumpEventsN : Nat → List Event
  | 0 => []
  | n + 1 => Event.execJobs :: Event.pumpIter :: pumpEventsN n

/-- A world where one module registers a keep-alive promise whose
`Promise.all` would settle only after five extra pump yields, but the user
script fails to evaluate (`evalCodeAsync` reports error 3). -/
def wEvalErrKeepAlive : World :=
  { modules := [{ defThrows := none, hooks := [], keepAlives := 1 }],
    evalError := some 3, jobErrors := [], settleAfter := 5 }

/-- A fully successful world with one keep-alive promise that settles after
one extra pump yield. -/
def wKeepAliveHappy : World :=
  { modules := [{ defThrows := none, hooks := [none], keepAlives := 2 }],
    evalError := none, jobErrors := [], settleAfter := 1 }

/-- A fully successful world with two modules registering two and one
after-script hooks. -/
def wTwoHookModules : World :=
  { modules := [{ defThrows := none, hooks := [none, none], keepAlives := 0 },
                { defThrows := none, hooks := [none], keepAlives := 0 }],
    evalError := none, jobErrors := [], settleAfter := 0 }

/-- A world whose single module throws error 7 from its `def`. -/
def wDefThrows : World :=
  { modules := [{ defThrows := some 7, hooks := [], keepAlives := 0 }],
    evalError := none, jobErrors := [], settleAfter := 0 }

/-- A world with no modules where the first job drain reports an error (a
guest microtask threw; dumped payload 9). -/
def wJobErr : World :=
  { modules := [], evalError := none, jobErrors := [some 9], settleAfter := 0 }

theorem addKeyEntries_gObj (more : List (String × GuestVal)) :
    ∀ fs, addKeyEntries (GuestVal.gObj fs) more = GuestVal.gObj (fs ++ more) := by
  induction more with
  | nil => intro fs; simp [addKeyEntries]
  | cons kv rest ih =>
    intro fs
    rcases kv with ⟨k, v⟩
    simp [addKeyEntries, addKeyEntry, ih]

theorem setPropKey_heap_length (s : MState) (parent : Nat) (k : String) (child : Nat) :
    (setPropKey s parent k child).heap.length = s.heap.length := by
  simp [setPropKey]

theorem setPropKey_managed (s : MState) (parent : Nat) (k : String) (child : Nat) :
    (setPropKey s parent k child).managed = s.managed := by
  simp [setPropKey]

theorem setPropKey_get_ne (s : MState) (parent : Nat) (k : String) (child : Nat)
    (q : Nat) (hq : q ≠ parent) :
    (setPropKey s parent k child).heap[q]? = s.heap[q]? := by
  simp only [setPropKey]
  exact List.getElem?_set_ne (fun h => hq h.symm)

theorem setPropKey_getObj_parent (s : MState) (parent : Nat) (k : String) (child : Nat)
    (hp : parent < s.heap.length) :
    getObj (setPropKey s parent k child) parent =
      addKeyEntry (getObj s parent) k (getObj s child) := by
  simp only [setPropKey, getObj]
  rw [List.getElem?_set_self' ]
  simp [hp, List.getElem?_eq_getElem]

theorem setKeyAll_heap_length (parent : Nat) :
    ∀ (kvs : List (String × Nat)) (s : MState),
      (setKeyAll parent kvs s).heap.length = s.heap.length := by
  intro kvs
  induction kvs with
  | nil => intro s; simp [setKeyAll]
  | cons kv rest ih =>
    intro s
    rcases kv with ⟨k, hid⟩
    simp [setKeyAll, ih, setPropKey_heap_length]

theorem setKeyAll_managed (parent : Nat) :
    ∀ (kvs : List (String × Nat)) (s : MState),
      (setKeyAll parent kvs s).managed = s.managed := by
  intro kvs
  induction kvs with
  | nil => intro s; simp [setKeyAll]
  | cons kv rest ih =>
    intro s
    rcases kv with ⟨k, hid⟩
    simp [setKeyAll, ih, setPropKey_managed]

theorem setKeyAll_get_ne (parent : Nat) :
    ∀ (kvs : List (String × Nat)) (s : MState) (q : Nat), q ≠ parent →
      (setKeyAll parent kvs s).heap[q]? = s.heap[q]? := by
  intro kvs
  induction kvs with
  | nil => intro s q _; simp [setKeyAll]
  | cons kv rest ih =>
    intro s q hq
    rcases kv with ⟨k, hid⟩
    simp only [setKeyAll]
    rw [ih _ q hq, setPropKey_get_ne _ _ _ _ _ hq]

theorem setKeyAll_getObj_parent (parent : Nat) :
    ∀ (kvs : List (String × Nat)) (s : MState),
      parent < s.heap.length → (∀ kh ∈ kvs, kh.2 < parent) →
      getObj (setKeyAll parent kvs s) parent =
        addKeyEntries (getObj s parent) (kvs.map (fun kh => (kh.1, getObj s kh.2))) := by
  intro kvs
  induction kvs with
  | nil => intro s _ _; simp [setKeyAll, addKeyEntries]
  | cons kv rest ih =>
    intro s hp hlt
    rcases kv with ⟨k, hid⟩
    have hhid : hid < parent := hlt (k, hid) (by simp)
    simp only [setKeyAll]
    rw [ih _ (by rw [setPropKey_heap_length]; exact hp) (fun kh hm => hlt kh (by simp [hm]))]
    rw [setPropKey_getObj_parent _ _ _ _ hp]
    simp only [List.map_cons, addKeyEntries]
    congr 1
    apply List.map_congr_left
    intro kh hm
    have : kh.2 < parent := hlt kh (by simp [hm])
    rw [getObj, setPropKey_get_ne _ _ _ _ _ (Nat.ne_of_lt this), getObj]

theorem clean_not_func : ∀ v, clean v = true → isFuncVal v = false := by
  intro v
  cases v <;> simp [clean, isFuncVal]

theorem isThenable_of_cleanFields :
    ∀ fields, cleanFields fields = true → isThenable fields = false := by
  intro fields
  induction fields with
  | nil => intro _; simp [isThenable, List.lookup]
  | cons kv rest ih =>
    intro h
    rcases kv with ⟨k, v⟩
    rw [cleanFields, Bool.and_eq_true] at h
    simp only [isThenable, List.lookup]
    cases hk : (("then" : String) == k) with
    | true => simpa using clean_not_func v h.1
    | false => simpa [isThenable] using ih h.2

theorem dumpKeyEntries_eq_map :
    ∀ fs, dumpKeyEntries fs = fs.map (fun kg => (kg.1, dumpVal kg.2)) := by
  intro fs
  induction fs with
  | nil => simp [dumpKeyEntries]
  | cons kg rest ih =>
    rcases kg with ⟨k, g⟩
    simp [dumpKeyEntries, ih]

theorem dumpIdxEntries_eq_map :
    ∀ es, dumpIdxEntries es = es.map (fun ig => dumpVal ig.2) := by
  intro es
  induction es with
  | nil => simp [dumpIdxEntries]
  | cons ig rest ih =>
    rcases ig with ⟨i, g⟩
    simp [dumpIdxEntries, ih]

theorem lt_length_of_getElem?_some {α : Type} {l : List α} {i : Nat} {a : α}
    (h : l[i]? = some a) : i < l.length := by
  by_contra hcon
  rw [List.getElem?_eq_none (by omega)] at h
  exact Option.noConfusion h

theorem SingletonsOK_four_le {s : MState} (hs : SingletonsOK s) : 4 ≤ s.heap.length := by
  have := lt_length_of_getElem?_some hs.2.2.2
  omega

theorem SingletonsOK_mono {s s2 : MState} (hs : SingletonsOK s)
    (hpres : ∀ i, i < s.heap.length → s2.heap[i]? = s.heap[i]?) : SingletonsOK s2 := by
  have h4 := SingletonsOK_four_le hs
  refine ⟨?_, ?_, ?_, ?_⟩
  · rw [hpres 0 (by omega)]; exact hs.1
  · rw [hpres 1 (by omega)]; exact hs.2.1
  · rw [hpres 2 (by omega)]; exact hs.2.2.1
  · rw [hpres 3 (by omega)]; exact hs.2.2.2

theorem alloc_sound (g : GuestVal) (s : MState) :
    (allocManaged g s).1 < (allocManaged g s).2.heap.length ∧
    s.heap.length ≤ (allocManaged g s).2.heap.length ∧
    (∀ i, i < s.heap.length → (allocManaged g s).2.heap[i]? = s.heap[i]?) ∧
    getObj (allocManaged g s).2 (allocManaged g s).1 = g := by
  refine ⟨by simp [allocManaged], by simp [allocManaged], ?_, ?_⟩
  · intro i hi
    simp only [allocManaged]
    exact List.getElem?_append_left hi
  · simp only [allocManaged, getObj]
    rw [List.getElem?_concat_length]
    rfl

mutual

theorem marshal_clean_sound :
    ∀ (v : HostValue) (s : MState), clean v = true → SingletonsOK s →
      ∃ h s2, marshalToVM v s = (.ok h, s2) ∧ h < s2.heap.length ∧
        s.heap.length ≤ s2.heap.length ∧
        (∀ i, i < s.heap.length → s2.heap[i]? = s.heap[i]?) ∧
        dumpVal (getObj s2 h) = v
  | .null, s => by
    intro _ hsing
    have h4 := SingletonsOK_four_le hsing
    refine ⟨0, s, rfl, by omega, le_refl _, fun i _ => rfl, ?_⟩
    simp only [getObj]
    rw [hsing.1]
    rfl
  | .undef, s => by
    intro _ hsing
    have h4 := SingletonsOK_four_le hsing
    refine ⟨1, s, rfl, by omega, le_refl _, fun i _ => rfl, ?_⟩
    simp only [getObj]
    rw [hsing.2.1]
    rfl
  | .bool true, s => by
    intro _ hsing
    have h4 := SingletonsOK_four_le hsing
    refine ⟨2, s, rfl, by omega, le_refl _, fun i _ => rfl, ?_⟩
    simp only [getObj]
    rw [hsing.2.2.1]
    rfl
  | .bool false, s => by
    intro _ hsing
    have h4 := SingletonsOK_four_le hsing
    refine ⟨3, s, rfl, by omega, le_refl _, fun i _ => rfl, ?_⟩
    simp only [getObj]
    rw [hsing.2.2.2]
    rfl
  | .arr elems, s => by
    intro hc _
    rw [clean] at hc
    exact Bool.noConfusion hc
  | .err n m, s => by
    intro _ _
    obtain ⟨h1, h2, h3, h4⟩ := alloc_sound (.gErr n m) s
    exact ⟨_, _, rfl, h1, h2, h3, by rw [h4]; rfl⟩
  | .obj fields, s => by
    intro hc hsing
    rw [clean] at hc
    have hthen := isThenable_of_cleanFields fields hc
    obtain ⟨kvs, s1, heq, hlt, hlen, hpres, hmap⟩ := marshalFields_clean_sound fields s hc hsing
    simp only [marshalToVM, hthen, Bool.false_eq_true, if_false]
    rw [heq]
    dsimp only
    obtain ⟨q1, q2, q3, q4⟩ := alloc_sound (.gObj []) s1
    have hparent : (allocManaged (GuestVal.gObj []) s1).1 = s1.heap.length := rfl
    have hA2len : (allocManaged (GuestVal.gObj []) s1).2.heap.length = s1.heap.length + 1 := by
      simp [allocManaged]
    have hchild : ∀ kh ∈ kvs, kh.2 < (allocManaged (GuestVal.gObj []) s1).1 := by
      intro kh hm
      rw [hparent]
      exact hlt kh hm
    refine ⟨_, _, rfl, ?_, ?_, ?_, ?_⟩
    · rw [setKeyAll_heap_length, hA2len, hparent]
      omega
    · rw [setKeyAll_heap_length, hA2len]
      omega
    · intro i hi
      have hi1 : i < s1.heap.length := lt_of_lt_of_le hi hlen
      rw [setKeyAll_get_ne _ _ _ _ (by rw [hparent]; omega), q3 i hi1, hpres i hi]
    · rw [setKeyAll_getObj_parent _ _ _ (by rw [hA2len, hparent]; omega) hchild, q4]
      rw [addKeyEntries_gObj, List.nil_append]
      simp only [dumpVal, dumpKeyEntries_eq_map, List.map_map]
      rw [show ((fun kg => (kg.1, dumpVal kg.2)) ∘
            fun kh => (kh.1, getObj (allocManaged (GuestVal.gObj []) s1).2 kh.2)) =
          (fun kh : String × Nat =>
            (kh.1, dumpVal (getObj (allocManaged (GuestVal.gObj []) s1).2 kh.2))) from rfl]
      rw [show HostValue.obj fields = HostValue.obj
            (kvs.map fun kh => (kh.1, dumpVal (getObj s1 kh.2))) by rw [hmap]]
      congr 1
      apply List.map_congr_left
      intro kh hm
      have hklt : kh.2 < s1.heap.length := hlt kh hm
      simp only [getObj]
      rw [q3 kh.2 hklt]
  | .str v, s => by
    intro _ _
    obtain ⟨h1, h2, h3, h4⟩ := alloc_sound (.gStr v) s
    exact ⟨_, _, rfl, h1, h2, h3, by rw [h4]; rfl⟩
  | .num v, s => by
    intro _ _
    obtain ⟨h1, h2, h3, h4⟩ := alloc_sound (.gNum v) s
    exact ⟨_, _, rfl, h1, h2, h3, by rw [h4]; rfl⟩
  | .func _, s => by
    intro hc _
    rw [clean] at hc
    exact Bool.noConfusion hc
  | .sym _, s => by
    intro hc _
    rw [clean] at hc
    exact Bool.noConfusion hc

theorem marshalFields_clean_sound :
    ∀ (fields : List (String × HostValue)) (s : MState),
      cleanFields fields = true → SingletonsOK s →
      ∃ kvs s2, marshalFields fields s = (.ok kvs, s2) ∧
        (∀ kh ∈ kvs, kh.2 < s2.heap.length) ∧
        s.heap.length ≤ s2.heap.length ∧
        (∀ i, i < s.heap.length → s2.heap[i]? = s.heap[i]?) ∧
        kvs.map (fun kh => (kh.1, dumpVal (getObj s2 kh.2))) = fields
  | [], s => by
    intro _ _
    exact ⟨[], s, rfl, by simp, le_refl _, fun i _ => rfl, by simp⟩
  | (k, v) :: rest, s => by
    intro hc hsing
    rw [cleanFields, Bool.and_eq_true] at hc
    obtain ⟨h1, s1, heq1, hlt1, hlen1, hpres1, hdump1⟩ := marshal_clean_sound v s hc.1 hsing
    have hsing1 : SingletonsOK s1 := SingletonsOK_mono hsing hpres1
    obtain ⟨kvs, s2, heq2, hlt2, hlen2, hpres2, hmap2⟩ :=
      marshalFields_clean_sound rest s1 hc.2 hsing1
    refine ⟨(k, h1) :: kvs, s2, ?_, ?_, ?_, ?_, ?_⟩
    · simp only [marshalFields]
      rw [heq1]
      dsimp only
      rw [heq2]
    · intro kh hm
      rcases List.mem_cons.mp hm with hm | hm
      · rw [hm]
        exact lt_of_lt_of_le hlt1 hlen2
      · exact hlt2 kh hm
    · exact le_trans hlen1 hlen2
    · intro i hi
      rw [hpres2 i (lt_of_lt_of_le hi hlen1), hpres1 i hi]
    · have hobj : getObj s2 h1 = getObj s1 h1 := by
        simp only [getObj]
        rw [hpres2 h1 hlt1]
      simp only [List.map_cons, hobj, hdump1, hmap2]

end

theorem setIdxAll_heap_length (parent : Nat) :
    ∀ (hs : List Nat) (i : Nat) (s : MState),
      (setIdxAll parent i hs s).heap.length = s.heap.length := by
  intro hs
  induction hs with
  | nil => intro i s; simp [setIdxAll]
  | cons hid rest ih =>
    intro i s
    simp [setIdxAll, ih, setPropIdx]

theorem setIdxAll_managed (parent : Nat) :
    ∀ (hs : List Nat) (i : Nat) (s : MState),
      (setIdxAll parent i hs s).managed = s.managed := by
  intro hs
  induction hs with
  | nil => intro i s; simp [setIdxAll]
  | cons hid rest ih =>
    intro i s
    simp [setIdxAll, ih, setPropIdx]

theorem allocManaged_managedOK (g : GuestVal) (s : MState) (h : ManagedOK s) :
    ManagedOK (allocManaged g s).2 := by
  obtain ⟨h4, hall⟩ := h
  constructor
  · simp only [allocManaged, List.length_append, List.length_cons, List.length_nil]
    omega
  · intro hh hge hlt
    simp only [allocManaged, List.length_append, List.length_cons, List.length_nil] at hlt
    simp only [allocManaged, List.mem_append, List.mem_cons, List.not_mem_nil, or_false]
    by_cases hcase : hh < s.heap.length
    · exact Or.inl (hall hh hge hcase)
    · exact Or.inr (by omega)

theorem setIdxAll_managedOK (parent : Nat) (hs : List Nat) (i : Nat) (s : MState)
    (h : ManagedOK s) : ManagedOK (setIdxAll parent i hs s) := by
  obtain ⟨h4, hall⟩ := h
  refine ⟨?_, ?_⟩
  · rw [setIdxAll_heap_length]; exact h4
  · intro hh hge hlt
    rw [setIdxAll_heap_length] at hlt
    rw [setIdxAll_managed]
    exact hall hh hge hlt

theorem setKeyAll_managedOK (parent : Nat) (kvs : List (String × Nat)) (s : MState)
    (h : ManagedOK s) : ManagedOK (setKeyAll parent kvs s) := by
  obtain ⟨h4, hall⟩ := h
  refine ⟨?_, ?_⟩
  · rw [setKeyAll_heap_length]; exact h4
  · intro hh hge hlt
    rw [setKeyAll_heap_length] at hlt
    rw [setKeyAll_managed]
    exact hall hh hge hlt

mutual

theorem marshal_managedOK :
    ∀ (v : HostValue) (s : MState), ManagedOK s → ManagedOK (marshalToVM v s).2
  | .null, s => fun h => h
  | .undef, s => fun h => h
  | .bool true, s => fun h => h
  | .bool false, s => fun h => h
  | .arr elems, s => by
    intro h
    have h1 := marshalList_managedOK elems s h
    simp only [marshalToVM]
    rcases hr : marshalList elems s with ⟨r, s1⟩
    rw [hr] at h1
    cases r with
    | error e => exact h1
    | ok hs =>
      dsimp only
      have h2 := setIdxAll_managedOK (allocManaged (GuestVal.gArr []) s1).1 hs 0 _
        (allocManaged_managedOK (GuestVal.gArr []) s1 h1)
      have h3 := marshalList_managedOK elems
        (setIdxAll (allocManaged (GuestVal.gArr []) s1).1 0 hs (allocManaged (GuestVal.gArr []) s1).2) h2
      rcases hr2 : marshalList elems
        (setIdxAll (allocManaged (GuestVal.gArr []) s1).1 0 hs (allocManaged (GuestVal.gArr []) s1).2)
        with ⟨r2, s2⟩
      rw [hr2] at h3
      cases r2 with
      | error e => exact h3
      | ok hs2 =>
        exact setKeyAll_managedOK _ _ _ (allocManaged_managedOK (GuestVal.gObj []) s2 h3)
  | .err n m, s => fun h => allocManaged_managedOK (GuestVal.gErr n m) s h
  | .obj fields, s => by
    intro h
    simp only [marshalToVM]
    cases hthen : isThenable fields with
    | true =>
      simp only [hthen, if_true]
      exact allocManaged_managedOK GuestVal.gPromise s h
    | false =>
      simp only [hthen, Bool.false_eq_true, if_false]
      have h1 := marshalFields_managedOK fields s h
      rcases hr : marshalFields fields s with ⟨r, s1⟩
      rw [hr] at h1
      cases r with
      | error e => exact h1
      | ok kvs =>
        exact setKeyAll_managedOK _ _ _ (allocManaged_managedOK (GuestVal.gObj []) s1 h1)
  | .str v, s => fun h => allocManaged_managedOK (GuestVal.gStr v) s h
  | .num v, s => fun h => allocManaged_managedOK (GuestVal.gNum v) s h
  | .func _, s => fun h => h
  | .sym _, s => fun h => h

theorem marshalList_managedOK :
    ∀ (vs : List HostValue) (s : MState), ManagedOK s → ManagedOK (marshalList vs s).2
  | [], s => fun h => h
  | v :: vs, s => by
    intro h
    have h1 := marshal_managedOK v s h
    simp only [marshalList]
    rcases hr : marshalToVM v s with ⟨r, s1⟩
    rw [hr] at h1
    cases r with
    | error e => exact h1
    | ok hh =>
      dsimp only
      have h2 := marshalList_managedOK vs s1 h1
      rcases hr2 : marshalList vs s1 with ⟨r2, s2⟩
      rw [hr2] at h2
      cases r2 with
      | error e => exact h2
      | ok hs => exact h2

theorem marshalFields_managedOK :
    ∀ (fields : List (String × HostValue)) (s : MState),
      ManagedOK s → ManagedOK (marshalFields fields s).2
  | [], s => fun h => h
  | (k, v) :: rest, s => by
    intro h
    have h1 := marshal_managedOK v s h
    simp only [marshalFields]
    rcases hr : marshalToVM v s with ⟨r, s1⟩
    rw [hr] at h1
    cases r with
    | error e => exact h1
    | ok hh =>
      dsimp only
      have h2 := marshalFields_managedOK rest s1 h1
      rcases hr2 : marshalFields rest s1 with ⟨r2, s2⟩
      rw [hr2] at h2
      cases r2 with
      | error e => exact h2
      | ok kvs => exact h2

end

theorem managedOK_initState : ManagedOK initState := by
  refine ⟨by simp [initState, initHeap], ?_⟩
  intro h hge hlt
  simp only [initState, initHeap, List.length_cons, List.length_nil] at hlt
  omega

theorem stepDefs_eq (w : World) :
    ∀ (ms : List ModuleSpec) (i : Nat) (s : RunState),
      stepDefs w i ms s = (defsResult ms, { s with trace := s.trace ++ defsEvents i ms }) := by
  intro ms
  induction ms with
  | nil => intro i s; simp [stepDefs, defsResult, defsEvents]
  | cons m rest ih =>
    intro i s
    cases hd : m.defThrows with
    | some e => simp [stepDefs, defsResult, defsEvents, emit, hd]
    | none => simp [stepDefs, defsResult, defsEvents, emit, hd, ih]

theorem stepJobs_eq_ok (w : World) (s : RunState) (h : jobErrAt w s.jobCalls = none) :
    stepJobs w s =
      (none, { s with trace := s.trace ++ [Event.execJobs], jobCalls := s.jobCalls + 1 }) := by
  simp [stepJobs, emit, h]

theorem stepJobs_eq_err (w : World) (s : RunState) (e : Nat)
    (h : jobErrAt w s.jobCalls = some e) :
    stepJobs w s =
      (some e, { s with trace := s.trace ++ [Event.execJobs], jobCalls := s.jobCalls + 1,
                        nextHandle := s.nextHandle + 1 }) := by
  simp [stepJobs, emit, h]

theorem stepJobs_trace (w : World) (s : RunState) :
    (stepJobs w s).2.trace = s.trace ++ [Event.execJobs] := by
  simp only [stepJobs, emit]
  cases jobErrAt w s.jobCalls <;> rfl

theorem stepHooksInner_eq (i : Nat) :
    ∀ (hooks : List (Option Nat)) (j : Nat) (s : RunState),
      stepHooksInner i j hooks s =
        (hooksResultInner hooks, { s with trace := s.trace ++ hookEventsInner i j hooks }) := by
  intro hooks
  induction hooks with
  | nil => intro j s; simp [stepHooksInner, hooksResultInner, hookEventsInner]
  | cons h rest ih =>
    intro j s
    cases hh : h with
    | some e => simp [stepHooksInner, hooksResultInner, hookEventsInner, emit, hh]
    | none => simp [stepHooksInner, hooksResultInner, hookEventsInner, emit, hh, ih]

theorem stepHooks_eq :
    ∀ (ms : List ModuleSpec) (i : Nat) (s : RunState),
      stepHooks i ms s = (hooksResult ms, { s with trace := s.trace ++ hooksEvents i ms }) := by
  intro ms
  induction ms with
  | nil => intro i s; simp [stepHooks, hooksResult, hooksEvents]
  | cons m rest ih =>
    intro i s
    simp only [stepHooks, stepHooksInner_eq]
    cases hr : hooksResultInner m.hooks with
    | some e => simp [hooksResult, hooksEvents, hr]
    | none => simp [hooksResult, hooksEvents, hr, ih]

theorem jobErrAt_of_jobsOk {w : World} (h : jobsOkB w = true) : ∀ k, jobErrAt w k = none := by
  intro k
  rw [jobsOkB, List.all_eq_true] at h
  rw [jobErrAt, List.getD_eq_getElem?_getD]
  cases hk : w.jobErrors[k]? with
  | none => rfl
  | some x =>
    have hx := h x (List.getElem?_mem hk)
    simp only [Option.isNone_iff_eq_none] at hx
    simp [hx]

theorem stepPump_eq_of_jobsOk (w : World) (hok : jobsOkB w = true) :
    ∀ (n : Nat) (s : RunState),
      stepPump w n s = (none, { s with trace := s.trace ++ pumpEventsN n,
                                       jobCalls := s.jobCalls + n }) := by
  intro n
  induction n with
  | zero => intro s; simp [stepPump, pumpEventsN]
  | succ n ih =>
    intro s
    simp only [stepPump, stepJobs_eq_ok w s (jobErrAt_of_jobsOk hok s.jobCalls)]
    rw [emit, ih]
    simp only [pumpEventsN, Prod.mk.injEq, RunState.mk.injEq, true_and]
    refine ⟨by simp, by omega, trivial⟩

theorem stepPump_hookFilter (w : World) :
    ∀ (n : Nat) (s : RunState),
      (stepPump w n s).2.trace.filter isHookEvent = s.trace.filter isHookEvent := by
  intro n
  induction n with
  | zero => intro s; simp [stepPump]
  | succ n ih =>
    intro s
    simp only [stepPump]
    rcases hj : stepJobs w s with ⟨r, s2⟩
    have ht := stepJobs_trace w s
    rw [hj] at ht
    cases r with
    | some e =>
      rw [ht, List.filter_append]
      simp [isHookEvent]
    | none =>
      rw [ih]
      have ht2 : s2.trace = s.trace ++ [Event.execJobs] := ht
      simp [emit, List.filter_append, isHookEvent, ht2]

theorem defsResult_none_of_all :
    ∀ ms : List ModuleSpec, ms.all (fun m => m.defThrows.isNone) = true →
      defsResult ms = none := by
  intro ms
  induction ms with
  | nil => intro _; rfl
  | cons m rest ih =>
    intro h
    rw [List.all_cons, Bool.and_eq_true] at h
    have hm : m.defThrows = none := Option.isNone_iff_eq_none.mp h.1
    simp [defsResult, hm, ih h.2]

theorem defsResult_some_of_not_all :
    ∀ ms : List ModuleSpec, ms.all (fun m => m.defThrows.isNone) = false →
      ∃ e, defsResult ms = some e := by
  intro ms
  induction ms with
  | nil => intro h; exact Bool.noConfusion h
  | cons m rest ih =>
    intro h
    rw [List.all_cons, Bool.and_eq_false_iff] at h
    cases hm : m.defThrows with
    | some e => exact ⟨e, by simp [defsResult, hm]⟩
    | none =>
      rcases h with h | h
      · rw [hm] at h; exact Bool.noConfusion h
      · obtain ⟨e, he⟩ := ih h
        exact ⟨e, by simp [defsResult, hm, he]⟩

theorem hooksResultInner_none_of_all :
    ∀ hooks : List (Option Nat), hooks.all (fun h => h.isNone) = true →
      hooksResultInner hooks = none := by
  intro hooks
  induction hooks with
  | nil => intro _; rfl
  | cons h rest ih =>
    intro hall
    rw [List.all_cons, Bool.and_eq_true] at hall
    have hh : h = none := Option.isNone_iff_eq_none.mp hall.1
    simp [hooksResultInner, hh, ih hall.2]

theorem hooksResult_none_of_all :
    ∀ ms : List ModuleSpec, ms.all (fun m => m.hooks.all (fun h => h.isNone)) = true →
      hooksResult ms = none := by
  intro ms
  induction ms with
  | nil => intro _; rfl
  | cons m rest ih =>
    intro h
    rw [List.all_cons, Bool.and_eq_true] at h
    simp [hooksResult, hooksResultInner_none_of_all m.hooks h.1, ih h.2]

theorem defsEvents_hookFilter :
    ∀ (ms : List ModuleSpec) (i : Nat), (defsEvents i ms).filter isHookEvent = [] := by
  intro ms
  induction ms with
  | nil => intro i; rfl
  | cons m rest ih =>
    intro i
    cases hd : m.defThrows with
    | some e => simp [defsEvents, hd, isHookEvent]
    | none => simp [defsEvents, hd, isHookEvent, ih]

theorem hookEventsInner_filter (i : Nat) :
    ∀ (hooks : List (Option Nat)) (j : Nat),
      (hookEventsInner i j hooks).filter isHookEvent = hookEventsInner i j hooks := by
  intro hooks
  induction hooks with
  | nil => intro j; rfl
  | cons h rest ih =>
    intro j
    cases hh : h with
    | some e => simp [hookEventsInner, hh, isHookEvent]
    | none => simp [hookEventsInner, hh, isHookEvent, ih]

theorem hooksEvents_filter :
    ∀ (ms : List ModuleSpec) (i : Nat),
      (hooksEvents i ms).filter isHookEvent = hooksEvents i ms := by
  intro ms
  induction ms with
  | nil => intro i; rfl
  | cons m rest ih =>
    intro i
    cases hr : hooksResultInner m.hooks with
    | some e => simp [hooksEvents, hr, List.filter_append, hookEventsInner_filter]
    | none => simp [hooksEvents, hr, List.filter_append, hookEventsInner_filter, ih]

theorem defsEvents_count_pump :
    ∀ (ms : List ModuleSpec) (i : Nat), (defsEvents i ms).count Event.pumpIter = 0 := by
  intro ms
  induction ms with
  | nil => intro i; rfl
  | cons m rest ih =>
    intro i
    cases hd : m.defThrows with
    | some e => simp [defsEvents, hd, List.count_cons]
    | none => simp [defsEvents, hd, List.count_cons, ih]

theorem hookEventsInner_count_pump (i : Nat) :
    ∀ (hooks : List (Option Nat)) (j : Nat),
      (hookEventsInner i j hooks).count Event.pumpIter = 0 := by
  intro hooks
  induction hooks with
  | nil => intro j; rfl
  | cons h rest ih =>
    intro j
    cases hh : h with
    | some e => simp [hookEventsInner, hh, List.count_cons]
    | none => simp [hookEventsInner, hh, List.count_cons, ih]

theorem hooksEvents_count_pump :
    ∀ (ms : List ModuleSpec) (i : Nat), (hooksEvents i ms).count Event.pumpIter = 0 := by
  intro ms
  induction ms with
  | nil => intro i; rfl
  | cons m rest ih =>
    intro i
    cases hr : hooksResultInner m.hooks with
    | some e => simp [hooksEvents, hr, List.count_append, hookEventsInner_count_pump]
    | none => simp [hooksEvents, hr, List.count_append, hookEventsInner_count_pump, ih]

theorem pumpEventsN_count_pump : ∀ n, (pumpEventsN n).count Event.pumpIter = n := by
  intro n
  induction n with
  | zero => rfl
  | succ n ih => simp [pumpEventsN, List.count_cons, ih]

theorem defsEvents_no_evalCode :
    ∀ (ms : List ModuleSpec) (i : Nat), Event.evalCode ∉ defsEvents i ms := by
  intro ms
  induction ms with
  | nil => intro i; simp [defsEvents]
  | cons m rest ih =>
    intro i
    cases hd : m.defThrows with
    | some e => simp [defsEvents, hd]
    | none => simp [defsEvents, hd, ih]

theorem hookEventsInner_all_ok (i : Nat) :
    ∀ (hooks : List (Option Nat)), hooks.all (fun h => h.isNone) = true → ∀ (j : Nat),
      hookEventsInner i j hooks =
        (List.range hooks.length).map (fun t => Event.hookRun i (j + t)) := by
  intro hooks
  induction hooks with
  | nil => intro _ j; rfl
  | cons h rest ih =>
    intro hall j
    rw [List.all_cons, Bool.and_eq_true] at hall
    have hh : h = none := Option.isNone_iff_eq_none.mp hall.1
    subst hh
    simp only [hookEventsInner]
    rw [List.length_cons, List.range_succ_eq_map, List.map_cons, List.map_map]
    rw [ih hall.2 (j + 1)]
    simp only [Nat.add_zero, Function.comp]
    congr 1
    apply List.map_congr_left
    intro t _
    congr 1
    omega

theorem hooksEvents_all_ok :
    ∀ (ms : List ModuleSpec), ms.all (fun m => m.hooks.all (fun h => h.isNone)) = true →
      ∀ (i : Nat), hooksEvents i ms = allHooksLex i ms := by
  intro ms
  induction ms with
  | nil => intro _ i; rfl
  | cons m rest ih =>
    intro hall i
    rw [List.all_cons, Bool.and_eq_true] at hall
    rw [hooksEvents, hooksResultInner_none_of_all m.hooks hall.1]
    rw [allHooksLex, hookEventsInner_all_ok i m.hooks hall.1 0, ih hall.2]
    congr 1
    apply List.map_congr_left
    intro t _
    rw [Nat.zero_add]

theorem defsResult_of_first_throw :
    ∀ (ms : List ModuleSpec) (i : Nat) (m : ModuleSpec) (e : Nat),
      ms[i]? = some m → m.defThrows = some e →
      (∀ j mj, j < i → ms[j]? = some mj → mj.defThrows = none) →
      defsResult ms = some e := by
  intro ms
  induction ms with
  | nil =>
    intro i m e hget _ _
    rw [List.getElem?_nil] at hget
    exact Option.noConfusion hget
  | cons m0 rest ih =>
    intro i m e hget hthrow hprev
    cases i with
    | zero =>
      rw [List.getElem?_cons_zero, Option.some_inj] at hget
      rw [defsResult, hget, hthrow]
    | succ i2 =>
      have h0 : m0.defThrows = none :=
        hprev 0 m0 (Nat.succ_pos i2) List.getElem?_cons_zero
      rw [List.getElem?_cons_succ] at hget
      rw [defsResult, h0]
      exact ih i2 m e hget hthrow (fun j mj hj hg =>
        hprev (j + 1) mj (by omega) (by rw [List.getElem?_cons_succ]; exact hg))

theorem runBody_defs_throw (w : World) (e : Nat) (hd : defsResult w.modules = some e) :
    runBody w initRunState =
      (some e, { trace := defsEvents 0 w.modules, jobCalls := 0, nextHandle := 2,
                 managed := [0, 1] }) := by
  simp [runBody, allocManagedR, initRunState, stepDefs_eq, hd]

theorem runBody_eval_error (w : World) (e : Nat) (hdefs : defsResult w.modules = none)
    (hev : w.evalError = some e) :
    runBody w initRunState =
      (some e, { trace := defsEvents 0 w.modules ++ [Event.evalCode], jobCalls := 0,
                 nextHandle := 3, managed := [0, 1, 2] }) := by
  simp [runBody, allocManagedR, initRunState, stepDefs_eq, hdefs, hev, emit]

theorem runBody_drain1_error (w : World) (e : Nat) (hdefs : defsResult w.modules = none)
    (hev : w.evalError = none) (hj : jobErrAt w 0 = some e) :
    runBody w initRunState =
      (some e, { trace := defsEvents 0 w.modules ++ [Event.evalCode, Event.execJobs],
                 jobCalls := 1, nextHandle := 4, managed := [0, 1, 2] }) := by
  simp [runBody, allocManagedR, initRunState, stepDefs_eq, hdefs, hev, emit, stepJobs_eq_err, hj]

theorem pumpPhase_hookFilter (w : World) (s : RunState) :
    (pumpPhase w s).2.trace.filter isHookEvent = s.trace.filter isHookEvent := by
  by_cases hKA : 0 < totalKeepAlives w
  · simp only [pumpPhase, hKA, if_true]
    rcases hp : stepPump w (w.settleAfter + 1) s with ⟨r, s2⟩
    have hfil := stepPump_hookFilter w (w.settleAfter + 1) s
    rw [hp] at hfil
    cases r with
    | some e => exact hfil
    | none =>
      rw [stepJobs_trace, List.filter_append, hfil]
      simp [isHookEvent]
  · simp only [pumpPhase, hKA, if_false]
    rw [stepJobs_trace, List.filter_append]
    simp [isHookEvent]

theorem pumpPhase_eq_of_jobsOk (w : World) (hjobs : jobsOkB w = true) (s : RunState) :
    pumpPhase w s =
      (none, { s with
          trace := s.trace ++ ((if 0 < totalKeepAlives w then pumpEventsN (w.settleAfter + 1) else []) ++ [Event.execJobs]),
          jobCalls := s.jobCalls + ((if 0 < totalKeepAlives w then w.settleAfter + 1 else 0) + 1) }) := by
  by_cases hKA : 0 < totalKeepAlives w
  · simp [pumpPhase, hKA, stepPump_eq_of_jobsOk w hjobs, stepJobs_eq_ok,
      jobErrAt_of_jobsOk hjobs]
    omega
  · simp [pumpPhase, hKA, stepJobs_eq_ok, jobErrAt_of_jobsOk hjobs]

theorem runBody_hookFilter_success (w : World) (hdefs : defsResult w.modules = none)
    (hev : w.evalError = none) (hj0 : jobErrAt w 0 = none) :
    (runBody w initRunState).2.trace.filter isHookEvent = hooksEvents 0 w.modules := by
  simp only [runBody, allocManagedR, initRunState, stepDefs_eq, hdefs, hev, emit,
    stepJobs_eq_ok, hj0, stepHooks_eq]
  cases hhr : hooksResult w.modules with
  | some e =>
    simp [List.filter_append, defsEvents_hookFilter, hooksEvents_filter, isHookEvent]
  | none =>
    dsimp only
    rw [pumpPhase_hookFilter]
    simp [List.filter_append, defsEvents_hookFilter, hooksEvents_filter, isHookEvent]

theorem runBody_happy (w : World) (hdefs : defsOkB w = true) (hev : w.evalError = none)
    (hjobs : jobsOkB w = true) (hhooks : hooksOkB w = true) :
    runBody w initRunState =
      (none,
       { trace := defsEvents 0 w.modules ++ [Event.evalCode, Event.execJobs] ++
                  hooksEvents 0 w.modules ++
                  ((if 0 < totalKeepAlives w then pumpEventsN (w.settleAfter + 1) else []) ++
                   [Event.execJobs]),
         jobCalls := (if 0 < totalKeepAlives w then w.settleAfter + 1 else 0) + 2,
         nextHandle := 3, managed := [0, 1, 2] }) := by
  have hdr : defsResult w.modules = none :=
    defsResult_none_of_all w.modules (by simpa [defsOkB] using hdefs)
  have hhr : hooksResult w.modules = none :=
    hooksResult_none_of_all w.modules (by simpa [hooksOkB] using hhooks)
  simp only [runBody, allocManagedR, initRunState, stepDefs_eq, hdr, hev, emit,
    stepJobs_eq_ok, jobErrAt_of_jobsOk hjobs, stepHooks_eq, hhr]
  rw [pumpPhase_eq_of_jobsOk w hjobs]
  simp only [Prod.mk.injEq, RunState.mk.injEq, true_and]
  refine ⟨by simp, by omega, by decide⟩

theorem runCodeM_happy (w : World) (h : happyB w = true) :
    runCodeM w =
      { result := RunCodeResult.ok,
        trace := defsEvents 0 w.modules ++ [Event.evalCode, Event.execJobs] ++
                 hooksEvents 0 w.modules ++
                 ((if 0 < totalKeepAlives w then pumpEventsN (w.settleAfter + 1) else []) ++
                  [Event.execJobs, Event.disposeScope]),
        allocated := 3, disposed := [0, 1, 2] } := by
  simp only [happyB, Bool.and_eq_true] at h
  obtain ⟨⟨⟨h1, h2⟩, h3⟩, h4⟩ := h
  simp only [runCodeM, runBody_happy w h1 (Option.isNone_iff_eq_none.mp h2) h3 h4, emit]
  simp

theorem hookTrace_runCodeM (w : World) :
    hookTrace (runCodeM w) = (runBody w initRunState).2.trace.filter isHookEvent := by
  simp [hookTrace, runCodeM, emit, List.filter_append, isHookEvent]

theorem buildPairs_allocs :
    ∀ (fields : List (String × DefNode)) (s : BuildState),
      (buildPairs fields s).2.allocs = s.allocs + buildAllocs fields ∧
      (buildPairs fields s).2.managed = s.managed + buildAllocs fields
  | [], s => by simp [buildPairs, buildAllocs]
  | (k, DefNode.plain cs) :: rest, s => by
    have h1 := buildPairs_allocs cs s
    have h2 := buildPairs_allocs rest (bumpAlloc (buildPairs cs s).2)
    simp only [buildPairs, buildAllocs, bumpAlloc] at h1 h2 ⊢
    omega
  | (k, DefNode.handle h) :: rest, s => by
    have h2 := buildPairs_allocs rest s
    simp only [buildPairs, buildAllocs] at h2 ⊢
    omega
  | (k, DefNode.plainAlive cs) :: rest, s => by
    have h2 := buildPairs_allocs rest s
    simp only [buildPairs, buildAllocs] at h2 ⊢
    omega

theorem buildPairs_struct :
    ∀ (fields : List (String × DefNode)) (s : BuildState),
      ((buildPairs fields s).1.map Prod.fst = fields.map Prod.fst) ∧
      (∀ (i : Nat) (k : String) (v : DefNode), fields[i]? = some (k, v) →
         isQuickJSHandle v = true →
         (buildPairs fields s).1[i]? = some (k, BuiltVal.installed v)) ∧
      (∀ (i : Nat) (k : String) (cs : List (String × DefNode)),
         fields[i]? = some (k, DefNode.plain cs) →
         ∃ sub : List (String × BuiltVal),
           (buildPairs fields s).1[i]? = some (k, BuiltVal.node sub)) := by
  intro fields
  induction fields with
  | nil =>
    intro s
    refine ⟨by simp [buildPairs], ?_, ?_⟩
    · intro i k v hget _
      rw [List.getElem?_nil] at hget
      exact Option.noConfusion hget
    · intro i k cs hget
      rw [List.getElem?_nil] at hget
      exact Option.noConfusion hget
  | cons kv rest ih =>
    intro s
    rcases kv with ⟨k0, v0⟩
    cases v0 with
    | handle h0 =>
      refine ⟨by simp [buildPairs, (ih s).1], ?_, ?_⟩
      · intro i k v hget hqjs
        cases i with
        | zero =>
          rw [List.getElem?_cons_zero, Option.some_inj] at hget
          injection hget with hk hv
          subst hk; subst hv
          simp [buildPairs]
        | succ i2 =>
          rw [List.getElem?_cons_succ] at hget
          simpa [buildPairs] using (ih s).2.1 i2 k v hget hqjs
      · intro i k cs hget
        cases i with
        | zero =>
          rw [List.getElem?_cons_zero, Option.some_inj] at hget
          exact absurd (congrArg Prod.snd hget) (by simp)
        | succ i2 =>
          rw [List.getElem?_cons_succ] at hget
          obtain ⟨sub, hsub⟩ := (ih s).2.2 i2 k cs hget
          exact ⟨sub, by simpa [buildPairs] using hsub⟩
    | plainAlive cs0 =>
      refine ⟨by simp [buildPairs, (ih s).1], ?_, ?_⟩
      · intro i k v hget hqjs
        cases i with
        | zero =>
          rw [List.getElem?_cons_zero, Option.some_inj] at hget
          injection hget with hk hv
          subst hk; subst hv
          simp [buildPairs]
        | succ i2 =>
          rw [List.getElem?_cons_succ] at hget
          simpa [buildPairs] using (ih s).2.1 i2 k v hget hqjs
      · intro i k cs hget
        cases i with
        | zero =>
          rw [List.getElem?_cons_zero, Option.some_inj] at hget
          exact absurd (congrArg Prod.snd hget) (by simp)
        | succ i2 =>
          rw [List.getElem?_cons_succ] at hget
          obtain ⟨sub, hsub⟩ := (ih s).2.2 i2 k cs hget
          exact ⟨sub, by simpa [buildPairs] using hsub⟩
    | plain cs0 =>
      refine ⟨by simp [buildPairs, (ih (bumpAlloc (buildPairs cs0 s).2)).1], ?_, ?_⟩
      · intro i k v hget hqjs
        cases i with
        | zero =>
          rw [List.getElem?_cons_zero, Option.some_inj] at hget
          injection hget with hk hv
          subst hk; subst hv
          rw [isQuickJSHandle] at hqjs
          exact Bool.noConfusion hqjs
        | succ i2 =>
          rw [List.getElem?_cons_succ] at hget
          simpa [buildPairs] using
            (ih (bumpAlloc (buildPairs cs0 s).2)).2.1 i2 k v hget hqjs
      · intro i k cs hget
        cases i with
        | zero =>
          rw [List.getElem?_cons_zero, Option.some_inj] at hget
          injection hget with hk hv
          subst hk
          exact ⟨(buildPairs cs0 s).1, by simp [buildPairs]⟩
        | succ i2 =>
          rw [List.getElem?_cons_succ] at hget
          obtain ⟨sub, hsub⟩ := (ih (bumpAlloc (buildPairs cs0 s).2)).2.2 i2 k cs hget
          exact ⟨sub, by simpa [buildPairs] using hsub⟩

/-- C1: For every source text and every list of modules, `runCode` returns a
tagged result that is either ok or an error carrying a payload; it never
rejects (throws out of) its returned task.  In the embedding every
environment — whatever errors arise during module registration, evaluation,
job draining, hooks or the pump loop — yields either `RunCodeResult.ok` or
`RunCodeResult.error e`; the `try`/`catch` of `runCode` admits no other
outcome. -/
theorem runCode_result_totality :
    ∀ w : World,
      (runCodeM w).result = RunCodeResult.ok ∨
      ∃ e, (runCodeM w).result = RunCodeResult.error e := by
  intro w
  cases h : (runCodeM w).result with
  | ok => exact Or.inl rfl
  | error e => exact Or.inr ⟨e, rfl⟩

/-- C2: the claim fails on the code — a code bug at the `executePendingJobs`
call sites.  When a job drain fails, `executePendingJobs` returns
`{ error: Handle }` (spec section 4.1); `runCode` dumps that handle and
throws the dumped value (src/lib/main.ts, lines 76-78, 98-100, 112-114),
but the error handle itself is never transferred to the guest, never
`scope.manage`d and never disposed.  In `wJobErr` the evaluation produces
four handles — runtime, context, eval result, and the job-error handle —
yet the scope disposes only the three that were registered with it: the
error handle is still alive after `runCode` returns, contradicting the
claim and the spec's own scope-completeness invariant (sections 3 and 8),
which is clearly the intent. -/
theorem runCode_job_error_handle_leak :
    (runCodeM wJobErr).result = RunCodeResult.error 9 ∧
    (runCodeM wJobErr).allocated = 4 ∧
    (runCodeM wJobErr).disposed = [0, 1, 2] ∧
    3 ∉ (runCodeM wJobErr).disposed := by
  refine ⟨rfl, rfl, rfl, by decide⟩

/-- C3 counterexample: the claim says that whenever some module registered a
keep-alive promise, `runCode` does not return before every keep-alive is
settled (in the embedding: the pump loop runs its `settleAfter + 1`
iterations) and performs one final drain.  In `wEvalErrKeepAlive` a module
registers one keep-alive that would settle only after five extra pump
yields, but the evaluation itself fails — `runCode` returns the error at
once, with zero pump iterations, before the keep-alive settles. -/
theorem keepAlive_not_awaited_on_eval_error :
    0 < totalKeepAlives wEvalErrKeepAlive ∧
    wEvalErrKeepAlive.settleAfter = 5 ∧
    (runCodeM wEvalErrKeepAlive).result = RunCodeResult.error 3 ∧
    (runCodeM wEvalErrKeepAlive).trace.count Event.pumpIter = 0 := by
  refine ⟨by decide, rfl, rfl, by decide⟩

/-- C3 (amended): on evaluations where module registration, the evaluation,
every job drain and every after-script hook succeed, if at least one
keep-alive promise was registered then the pump loop runs until the
keep-alives settle (`settleAfter + 1` iterations) and a single final drain
of the guest job queue precedes teardown and the ok return; if no
keep-alive was registered, the pump loop is skipped entirely. -/
theorem keepAlive_pump_on_success :
    ∀ w : World, happyB w = true →
      (0 < totalKeepAlives w →
        (runCodeM w).trace.count Event.pumpIter = w.settleAfter + 1) ∧
      (totalKeepAlives w = 0 → (runCodeM w).trace.count Event.pumpIter = 0) ∧
      (∃ pre, (runCodeM w).trace = pre ++ [Event.execJobs, Event.disposeScope]) ∧
      (runCodeM w).result = RunCodeResult.ok := by
  intro w h
  rw [runCodeM_happy w h]
  refine ⟨?_, ?_, ?_, rfl⟩
  · intro hKA
    simp [hKA, List.count_append, defsEvents_count_pump, hooksEvents_count_pump,
      pumpEventsN_count_pump, List.count_cons]
  · intro hKA
    rw [hKA]
    simp [List.count_append, defsEvents_count_pump, hooksEvents_count_pump, List.count_cons]
  · refine ⟨defsEvents 0 w.modules ++ [Event.evalCode, Event.execJobs] ++
      hooksEvents 0 w.modules ++
      (if 0 < totalKeepAlives w then pumpEventsN (w.settleAfter + 1) else []), ?_⟩
    simp

/-- Witness for C3's amended theorem at a concrete input. -/
theorem keepAlive_pump_on_success_witness :
    (runCodeM wKeepAliveHappy).trace.count Event.pumpIter = 2 ∧
    (runCodeM wKeepAliveHappy).result = RunCodeResult.ok := by
  have h := keepAlive_pump_on_success wKeepAliveHappy (by decide)
  refine ⟨?_, h.2.2.2⟩
  rw [h.1 (by decide)]
  rfl

/-- C4: the after-script hooks run exactly when both the initial evaluation
and the first job-queue drain succeeded, in module-supplied order first and
within-module registration order second.  Conjuncts: (1) when defs, eval
and the first drain succeed, the hook invocations are exactly `hooksEvents`
— every hook in (module order, registration order) up to and including the
first throwing hook, and independent of anything the pump phase does
afterwards; (2) when no hook throws, `hooksEvents` is the full
lexicographic enumeration of all registered hooks; (3)-(5) when a module
def throws, the evaluation fails, or the first drain fails, no hook runs. -/
theorem afterScriptHooks_gating_and_order :
    ∀ w : World,
      (defsOkB w = true → w.evalError = none → jobErrAt w 0 = none →
        hookTrace (runCodeM w) = hooksEvents 0 w.modules) ∧
      (hooksOkB w = true → hooksEvents 0 w.modules = allHooksLex 0 w.modules) ∧
      (defsOkB w = false → hookTrace (runCodeM w) = []) ∧
      (∀ e, w.evalError = some e → hookTrace (runCodeM w) = []) ∧
      (∀ e, defsOkB w = true → jobErrAt w 0 = some e → hookTrace (runCodeM w) = []) := by
  intro w
  refine ⟨?_, ?_, ?_, ?_, ?_⟩
  · intro hdefs hev hj0
    rw [hookTrace_runCodeM]
    exact runBody_hookFilter_success w
      (defsResult_none_of_all w.modules (by simpa [defsOkB] using hdefs)) hev hj0
  · intro hhooks
    exact hooksEvents_all_ok w.modules (by simpa [hooksOkB] using hhooks) 0
  · intro hdefs
    obtain ⟨e, he⟩ := defsResult_some_of_not_all w.modules (by simpa [defsOkB] using hdefs)
    rw [hookTrace_runCodeM, runBody_defs_throw w e he]
    simp [defsEvents_hookFilter]
  · intro e hev
    cases hdefs : defsOkB w with
    | true =>
      rw [hookTrace_runCodeM, runBody_eval_error w e
        (defsResult_none_of_all w.modules (by simpa [defsOkB] using hdefs)) hev]
      simp [List.filter_append, defsEvents_hookFilter, isHookEvent]
    | false =>
      obtain ⟨e2, he2⟩ := defsResult_some_of_not_all w.modules (by simpa [defsOkB] using hdefs)
      rw [hookTrace_runCodeM, runBody_defs_throw w e2 he2]
      simp [defsEvents_hookFilter]
  · intro e hdefs hj0
    cases hev : w.evalError with
    | some e2 =>
      cases hdefs2 : defsOkB w with
      | true =>
        rw [hookTrace_runCodeM, runBody_eval_error w e2
          (defsResult_none_of_all w.modules (by simpa [defsOkB] using hdefs2)) hev]
        simp [List.filter_append, defsEvents_hookFilter, isHookEvent]
      | false =>
        obtain ⟨e3, he3⟩ := defsResult_some_of_not_all w.modules
          (by simpa [defsOkB] using hdefs2)
        rw [hookTrace_runCodeM, runBody_defs_throw w e3 he3]
        simp [defsEvents_hookFilter]
    | none =>
      rw [hookTrace_runCodeM, runBody_drain1_error w e
        (defsResult_none_of_all w.modules (by simpa [defsOkB] using hdefs)) hev hj0]
      simp [List.filter_append, defsEvents_hookFilter, isHookEvent]

/-- Witness for C4 at a concrete input: two modules with two and one hooks,
everything succeeding — all three hooks run, module order first,
registration order second. -/
theorem afterScriptHooks_gating_and_order_witness :
    hookTrace (runCodeM wTwoHookModules) =
      [Event.hookRun 0 0, Event.hookRun 0 1, Event.hookRun 1 0] := by
  have h := afterScriptHooks_gating_and_order wTwoHookModules
  rw [h.1 rfl rfl rfl]
  rfl

/-- C5 counterexample: the round-trip law fails on the host array `[42]`.
Marshalling succeeds (handle 7), but dumping the returned guest value gives
the plain object with the single string key "0" — not the array — because
of the array branch's missing return. -/
theorem marshal_roundtrip_fails_on_array :
    (marshalToVM (HostValue.arr [HostValue.num 42]) initState).1 = Except.ok 7 ∧
    dumpVal (getObj (marshalToVM (HostValue.arr [HostValue.num 42]) initState).2 7) ≠
      HostValue.arr [HostValue.num 42] := by
  refine ⟨rfl, ?_⟩
  intro hcon
  have h2 : HostValue.obj [("0", HostValue.num 42)] = HostValue.arr [HostValue.num 42] := hcon
  exact HostValue.noConfusion h2

/-- C5 (amended): for every host value recognized by the marshaller that
contains no array — built from null, undefined, booleans, numbers, strings,
errors and plain non-thenable objects, with no function and no unrecognized
value anywhere (`clean`) — dumping the guest handle produced by marshalling
the value yields a structurally equal host value. -/
theorem marshal_roundtrip_arrayFree :
    ∀ v : HostValue, clean v = true →
      ∃ h s2, marshalToVM v initState = (Except.ok h, s2) ∧ dumpVal (getObj s2 h) = v := by
  intro v hc
  have hsing : SingletonsOK initState := ⟨rfl, rfl, rfl, rfl⟩
  obtain ⟨h, s2, heq, _, _, _, hdump⟩ := marshal_clean_sound v initState hc hsing
  exact ⟨h, s2, heq, hdump⟩

/-- Witness for C5's amended theorem at a concrete input. -/
theorem marshal_roundtrip_arrayFree_witness :
    clean (HostValue.obj [("a", HostValue.num 1)]) = true ∧
    (∃ h s2,
      marshalToVM (HostValue.obj [("a", HostValue.num 1)]) initState = (Except.ok h, s2) ∧
      dumpVal (getObj s2 h) = HostValue.obj [("a", HostValue.num 1)]) :=
  ⟨rfl, marshal_roundtrip_arrayFree (HostValue.obj [("a", HostValue.num 1)]) rfl⟩

/-- C6: evaluating `marshalToVM` on the host array `[42]` shows the bug the
claim (and the spec's array rule) describe: the array branch constructs a
guest array handle (heap slot 5, correctly populated by integer index) but
does not return it; the function instead returns handle 7, a fresh plain
object keyed by the string "0", produced by the fall-through into the
`typeof "object"` branch. -/
theorem marshal_array_branch_returns_object :
    (marshalToVM (HostValue.arr [HostValue.num 42]) initState).1 = Except.ok 7 ∧
    (marshalToVM (HostValue.arr [HostValue.num 42]) initState).2.heap[5]? =
      some (GuestVal.gArr [(0, GuestVal.gNum 42)]) ∧
    getObj (marshalToVM (HostValue.arr [HostValue.num 42]) initState).2 7 =
      GuestVal.gObj [("0", GuestVal.gNum 42)] ∧
    (5 : Nat) ≠ 7 :=
  ⟨rfl, rfl, rfl, by decide⟩

/-- C7: when the first throwing module `def` throws error `e`, `runCode`
returns an error result carrying exactly `e`, and `evalCodeAsync` is never
invoked — the user script is not evaluated. -/
theorem module_def_throw_short_circuits :
    ∀ (w : World) (i : Nat) (m : ModuleSpec) (e : Nat),
      w.modules[i]? = some m → m.defThrows = some e →
      (∀ j mj, j < i → w.modules[j]? = some mj → mj.defThrows = none) →
      (runCodeM w).result = RunCodeResult.error e ∧
      Event.evalCode ∉ (runCodeM w).trace := by
  intro w i m e hget hthrow hprev
  have hdr := defsResult_of_first_throw w.modules i m e hget hthrow hprev
  simp only [runCodeM, runBody_defs_throw w e hdr, emit]
  refine ⟨by trivial, by simp [defsEvents_no_evalCode]⟩

/-- Witness for C7 at a concrete input. -/
theorem module_def_throw_short_circuits_witness :
    (runCodeM wDefThrows).result = RunCodeResult.error 7 ∧
    Event.evalCode ∉ (runCodeM wDefThrows).trace :=
  module_def_throw_short_circuits wDefThrows 0
    { defThrows := some 7, hooks := [], keepAlives := 0 } 7 rfl rfl
    (fun j _mj hj _ => absurd hj (Nat.not_lt_zero j))

/-- C8: marshalling a host function fails with the unmarshallable-function
error, and marshalling a value matching none of the rules fails with the
unmarshallable-value error; neither produces a guest handle, and the state
is left untouched. -/
theorem marshal_function_and_unknown_fail :
    ∀ (t : Nat) (s : MState),
      marshalToVM (HostValue.func t) s = (Except.error cannotMarshalFunction, s) ∧
      marshalToVM (HostValue.sym t) s = (Except.error cannotMarshalValue, s) :=
  fun _ _ => ⟨rfl, rfl⟩

/-- C9: a guest call of a `defineSandboxFn`-installed host function never
propagates a host exception across the host/guest boundary uncaught: the
outcome is always either a returned handle or a guest-side throw, and when
the host function throws error `e` the guest observes a throw carrying
exactly `e.name` and `e.message`.  (The conversion at the callback boundary
is the engine adapter's contract, modelled from the spec.) -/
theorem sandboxFn_host_throw_becomes_guest_throw :
    ∀ (hostFn : List HostValue → Except HostErr HostValue) (args : List GuestVal) (s : MState),
      ((∃ h s2, invokeSandboxFn hostFn args s = (GuestOutcome.returned h, s2)) ∨
       (∃ n msg s2, invokeSandboxFn hostFn args s = (GuestOutcome.threw n msg, s2))) ∧
      (∀ e, hostFn (args.map dumpVal) = Except.error e →
        invokeSandboxFn hostFn args s = (GuestOutcome.threw e.name e.message, s)) := by
  intro hostFn args s
  constructor
  · rcases hr : transformedFunc hostFn args s with ⟨r, s2⟩
    cases r with
    | ok h => exact Or.inl ⟨h, s2, by simp only [invokeSandboxFn, hr]⟩
    | error e => exact Or.inr ⟨e.name, e.message, s2, by simp only [invokeSandboxFn, hr]⟩
  · intro e he
    simp only [invokeSandboxFn, transformedFunc, he]

/-- Witness for C9 at a concrete input: a host function that throws
`TypeError: boom` surfaces in the guest as a throw carrying that name and
message. -/
theorem sandboxFn_host_throw_becomes_guest_throw_witness :
    invokeSandboxFn (fun _ => Except.error ⟨"TypeError", "boom"⟩) [] initState =
      (GuestOutcome.threw "TypeError" "boom", initState) :=
  (sandboxFn_host_throw_becomes_guest_throw
    (fun _ => Except.error ⟨"TypeError", "boom"⟩) [] initState).2 ⟨"TypeError", "boom"⟩ rfl

/-- C10: in `defineSandboxObject`/`buildNestedObject`, a leaf that is a
non-null object exposing a boolean `alive` property passes
`isQuickJSHandle` and is installed verbatim without recursion — even when
it is a plain host object rather than a real handle — while every other
object leaf is recursively built as a nested guest object; keys are set in
iteration order.  Conjuncts: (1)-(3) the `isQuickJSHandle` test on the
three leaf shapes; (4) the built object keeps the keys in order, installs
every `isQuickJSHandle`-passing leaf verbatim and builds a nested object
for every plain leaf; (5) allocation accounting — one managed
`vm.newObject()` per built node; (6) a `plainAlive` leaf contributes no
allocations at all, whatever its contents: it is not recursed into. -/
theorem buildNestedObject_alive_leaf_verbatim :
    (∀ h : Nat, isQuickJSHandle (DefNode.handle h) = true) ∧
    (∀ cs : List (String × DefNode), isQuickJSHandle (DefNode.plainAlive cs) = true) ∧
    (∀ cs : List (String × DefNode), isQuickJSHandle (DefNode.plain cs) = false) ∧
    (∀ (fields : List (String × DefNode)) (s : BuildState),
      ∃ pairs s2, buildNestedObject fields s = (BuiltVal.node pairs, s2) ∧
        pairs.map Prod.fst = fields.map Prod.fst ∧
        (∀ (i : Nat) (k : String) (v : DefNode), fields[i]? = some (k, v) →
          isQuickJSHandle v = true → pairs[i]? = some (k, BuiltVal.installed v)) ∧
        (∀ (i : Nat) (k : String) (cs : List (String × DefNode)),
          fields[i]? = some (k, DefNode.plain cs) →
          ∃ sub : List (String × BuiltVal), pairs[i]? = some (k, BuiltVal.node sub))) ∧
    (∀ (fields : List (String × DefNode)) (s : BuildState),
      (buildNestedObject fields s).2.allocs = s.allocs + buildAllocs fields + 1 ∧
      (buildNestedObject fields s).2.managed = s.managed + buildAllocs fields + 1) ∧
    (∀ (k : String) (cs rest : List (String × DefNode)),
      buildAllocs ((k, DefNode.plainAlive cs) :: rest) = buildAllocs rest) := by
  refine ⟨fun _ => rfl, fun _ => rfl, fun _ => rfl, ?_, ?_, ?_⟩
  · intro fields s
    obtain ⟨hkeys, hinst, hplain⟩ := buildPairs_struct fields s
    exact ⟨(buildPairs fields s).1, bumpAlloc (buildPairs fields s).2, rfl,
      hkeys, hinst, hplain⟩
  · intro fields s
    obtain ⟨ha, hm⟩ := buildPairs_allocs fields s
    constructor
    · simp only [buildNestedObject, bumpAlloc]
      omega
    · simp only [buildNestedObject, bumpAlloc]
      omega
  · intro k cs rest
    simp [buildAllocs]

/-- Witness for C10 at a concrete input: a tree whose single leaf is a
plain host object with a boolean `alive` and a child underneath — the leaf
is installed verbatim, its child is not recursed into, and exactly one
guest object is allocated. -/
theorem buildNestedObject_alive_leaf_verbatim_witness :
    (∃ pairs s2,
      buildNestedObject [("a", DefNode.plainAlive [("x", DefNode.plain [])])] buildInit =
        (BuiltVal.node pairs, s2) ∧
      pairs[0]? = some ("a",
        BuiltVal.installed (DefNode.plainAlive [("x", DefNode.plain [])]))) ∧
    (buildNestedObject [("a", DefNode.plainAlive [("x", DefNode.plain [])])]
        buildInit).2.allocs = 1 := by
  have h := buildNestedObject_alive_leaf_verbatim
  obtain ⟨pairs, s2, heq, _, hinst, _⟩ :=
    h.2.2.2.1 [("a", DefNode.plainAlive [("x", DefNode.plain [])])] buildInit
  refine ⟨⟨pairs, s2, heq, hinst 0 "a" (DefNode.plainAlive [("x", DefNode.plain [])]) rfl rfl⟩, ?_⟩
  have ha := (h.2.2.2.2.1 [("a", DefNode.plainAlive [("x", DefNode.plain [])])] buildInit).1
  rw [ha]
  simp [buildAllocs, buildInit]

end Cage
